import Mathlib

/-!
Shallow embedding of `simulate.cc` (queue-dispatch): a discrete-time
simulator of a producer → dispatcher → consumer pipeline with admission
control.  `std::chrono::duration<double>` values are modelled as `ℚ`
(all quantities the claims touch are exact in the runs considered) and
each random engine is modelled as a deterministic stream of draws plus a
cursor: `get()` returns the draw under the cursor and advances it.
-/

namespace QueueDispatch

/-! ## Random engines and stochastic processes -/

/-- A deterministic view of one owned random process: the stream of values
its `get()` will return, plus the cursor position.  `get` reads the stream
at the cursor and advances the cursor, mirroring that each call to
`process::get()` consumes one draw of the owned engine. -/
structure Proc where
  draws : ℕ → ℚ
  idx : ℕ

def Proc.get (p : Proc) : ℚ × Proc := (p.draws p.idx, ⟨p.draws, p.idx + 1⟩)

/-- The seed a default-constructed `std::mt19937` engine carries
(`std::mt19937::default_seed`). -/
def mt19937_default_seed : ℕ := 5489

/-- The state of a `std::mt19937` engine: the seed it was constructed with
and how many values have been extracted.  The values themselves are
abstracted as a function of (seed, extraction index), reflecting that the
engine is a deterministic function of its seed. -/
structure RngEngine where
  seed : ℕ
  idx : ℕ

/-- The `CAP_FACTOR` preprocessor default of `simulate.cc`. -/
def CAP_FACTOR : ℚ := 3

/-- `poisson_process`: `_rng(_rd())` seeds the engine from the random
device, so construction records the entropy value the device supplied. -/
structure poisson_process where
  lat : ℚ
  rng : RngEngine

def poisson_process.construct (entropy : ℕ) (period : ℚ) : poisson_process :=
  ⟨period, ⟨entropy, 0⟩⟩

/-- `poisson_process::get`: one exponential draw from the owned engine;
`expDraw seed i` abstracts the `i`-th value of `_exp(_rng)` for an engine
seeded with `seed`. -/
def poisson_process.get (expDraw : ℕ → ℕ → ℚ) (p : poisson_process) :
    ℚ × poisson_process :=
  (expDraw p.rng.seed p.rng.idx, ⟨p.lat, ⟨p.rng.seed, p.rng.idx + 1⟩⟩)

/-- `exp_delay_process`: the member initializer list is
`_lat(period), _exp(1.0)` — the `std::mt19937 _rng` member is left
default-constructed (seed 5489) and the `std::random_device _rd` member is
never read, so the entropy value the device would supply is ignored. -/
structure exp_delay_process where
  lat : ℚ
  rng : RngEngine

def exp_delay_process.construct (_entropy : ℕ) (period : ℚ) : exp_delay_process :=
  ⟨period, ⟨mt19937_default_seed, 0⟩⟩

/-- `exp_delay_process::get`: `_lat * (1.0 + _exp(_rng))`. -/
def exp_delay_process.get (expDraw : ℕ → ℕ → ℚ) (p : exp_delay_process) :
    ℚ × exp_delay_process :=
  (p.lat * (1 + expDraw p.rng.seed p.rng.idx), ⟨p.lat, ⟨p.rng.seed, p.rng.idx + 1⟩⟩)

/-- The `n`-th value of an `exp_delay_process` instance's `get()` sequence. -/
def exp_delay_nth (expDraw : ℕ → ℕ → ℚ) (p : exp_delay_process) : ℕ → ℚ
  | 0 => (p.get expDraw).1
  | n + 1 => exp_delay_nth expDraw (p.get expDraw).2 n

/-- `cap_delay_process`: the member initializer list is
`_lat(period), _jit(1.0, CAP_FACTOR)` — as with `exp_delay_process`, the
`std::mt19937 _rng` member is default-constructed (seed 5489) and `_rd` is
never read. -/
structure cap_delay_process where
  lat : ℚ
  rng : RngEngine

def cap_delay_process.construct (_entropy : ℕ) (period : ℚ) : cap_delay_process :=
  ⟨period, ⟨mt19937_default_seed, 0⟩⟩

/-- `cap_delay_process::get`: `_lat * _jit(_rng)` where `_jit` is
`std::uniform_real_distribution<double>(1.0, CAP_FACTOR)`; `uniDraw seed i`
abstracts the `i`-th value of `_jit(_rng)` for an engine seeded with
`seed`. -/
def cap_delay_process.get (uniDraw : ℕ → ℕ → ℚ) (p : cap_delay_process) :
    ℚ × cap_delay_process :=
  (p.lat * uniDraw p.rng.seed p.rng.idx, ⟨p.lat, ⟨p.rng.seed, p.rng.idx + 1⟩⟩)

/-- The `n`-th value of a `cap_delay_process` instance's `get()` sequence. -/
def cap_delay_nth (uniDraw : ℕ → ℕ → ℚ) (p : cap_delay_process) : ℕ → ℚ
  | 0 => (p.get uniDraw).1
  | n + 1 => cap_delay_nth uniDraw (p.get uniDraw).2 n

/-! ## Requests and the statistics collector -/

/-- `struct request { const duration<double> start; duration<double> dispatch; }`;
the constructor sets `start = now` and `dispatch = 0`. -/
structure Request where
  start : ℚ
  dispatch : ℚ
deriving DecidableEq

def Request.make (now : ℚ) : Request := ⟨now, 0⟩

/-- The collector state, abstracted as the sequence of
`collect(lat, xlat)` calls it has received (the boost accumulators are a
pure function of that sequence). -/
structure Collector where
  samples : List (ℚ × ℚ)
deriving DecidableEq

def Collector.collect (st : Collector) (lat xlat : ℚ) : Collector :=
  ⟨st.samples ++ [(lat, xlat)]⟩

/-! ## Consumer -/

/-- `class consumer`: in-flight FIFO `_executing`, next completion time
`_next`, `_processed` count, collector reference `_st`, service interval
`_lat`, owned service-time process `_pause`. -/
structure Consumer where
  executing : List Request
  next : ℚ
  processed : ℕ
  st : Collector
  lat : ℚ
  pause : Proc

/-- The `while` loop of `consumer::tick`: while the in-flight FIFO is
non-empty and `now >= _next`, collect the head's latencies, pop it,
increment `_processed` and advance `_next` by one draw.  Structural
recursion on the FIFO (each iteration pops one element). -/
def consumerDrain (now : ℚ) :
    List Request → ℚ → ℕ → Collector → Proc → ℚ → Consumer
  | [], next, processed, st, pause, lat => ⟨[], next, processed, st, lat, pause⟩
  | rq :: rest, next, processed, st, pause, lat =>
    if next ≤ now then
      consumerDrain now rest (next + pause.draws pause.idx) (processed + 1)
        (st.collect (now - rq.start) (now - rq.dispatch))
        ⟨pause.draws, pause.idx + 1⟩ lat
    else ⟨rq :: rest, next, processed, st, lat, pause⟩

def Consumer.tick (c : Consumer) (now : ℚ) : Consumer :=
  consumerDrain now c.executing c.next c.processed c.st c.pause c.lat

/-- `consumer::execute`: if the FIFO was empty, restart the completion
clock at `now + get()`; stamp the request's dispatch time with `now` and
append it to the FIFO's tail. -/
def Consumer.execute (c : Consumer) (now : ℚ) (rq : Request) : Consumer :=
  if c.executing.isEmpty then
    { c with
      next := now + c.pause.draws c.pause.idx
      pause := ⟨c.pause.draws, c.pause.idx + 1⟩
      executing := c.executing ++ [{ rq with dispatch := now }] }
  else
    { c with executing := c.executing ++ [{ rq with dispatch := now }] }

/-! ## Dispatcher -/

/-- `class dispatcher`: owned cadence process `_pause`, next attempt time
`_next`, pending FIFO `_queue`, `_dispatched` count, admission `_limit`. -/
structure Dispatcher where
  pause : Proc
  next : ℚ
  queue : List Request
  dispatched : ℕ
  limit : ℕ

/-- `dispatcher::dispatcher`: `_limit = lat * goal_factor / cons.latency()`
(a `double` truncated into an `unsigned long`, i.e. the floor for the
non-negative values that arise), `_next = 0`, empty queue, zero dispatched;
throws "Too low consumer rate" when the computed limit is zero. -/
def Dispatcher.construct (lat goalFactor consLat : ℚ) (pause : Proc) :
    Except String Dispatcher :=
  let limit : ℕ := (⌊lat * goalFactor / consLat⌋).toNat
  if limit = 0 then Except.error "Too low consumer rate"
  else Except.ok ⟨pause, 0, [], 0, limit⟩

/-- `dispatcher::queue`: append a freshly created request to the tail. -/
def Dispatcher.enqueue (d : Dispatcher) (now : ℚ) : Dispatcher :=
  { d with queue := d.queue ++ [Request.make now] }

/-- The admission loop of `dispatcher::tick`: while the pending queue is
non-empty, stop as soon as the consumer's in-flight count has reached the
limit, otherwise hand the head request to the consumer, pop it and count
it as dispatched. -/
def dispatchAdmit (now : ℚ) (limit : ℕ) :
    List Request → ℕ → Consumer → List Request × ℕ × Consumer
  | [], dispatched, cons => ([], dispatched, cons)
  | rq :: rest, dispatched, cons =>
    if limit ≤ cons.executing.length then (rq :: rest, dispatched, cons)
    else dispatchAdmit now limit rest (dispatched + 1) (cons.execute now rq)

/-- `dispatcher::tick`: fires only when `now >= _next`; on firing advances
`_next` by one draw, then runs the admission loop. -/
def Dispatcher.tick (d : Dispatcher) (cons : Consumer) (now : ℚ) :
    Dispatcher × Consumer :=
  if d.next ≤ now then
    ({ d with
        pause := ⟨d.pause.draws, d.pause.idx + 1⟩
        next := d.next + d.pause.draws d.pause.idx
        queue := (dispatchAdmit now d.limit d.queue d.dispatched cons).1
        dispatched := (dispatchAdmit now d.limit d.queue d.dispatched cons).2.1 },
      (dispatchAdmit now d.limit d.queue d.dispatched cons).2.2)
  else (d, cons)

/-! ## Producer -/

/-- `class producer`: next emission time `_next`, `_generated` count,
owned inter-arrival process `_pause`. -/
structure Producer where
  next : ℚ
  generated : ℕ
  pause : Proc

/-- The `while (now >= _next)` loop of `producer::tick`: advance `_next`
by one draw, enqueue a request created at `now` into the dispatcher, and
count it.  The C++ loop has no intrinsic bound, so the embedding takes
explicit fuel; a run of the loop that exits by its guard is one whose
result is unchanged by further fuel. -/
def producerLoop (now : ℚ) : ℕ → Producer → Dispatcher → Producer × Dispatcher
  | 0, p, d => (p, d)
  | fuel + 1, p, d =>
    if p.next ≤ now then
      producerLoop now fuel
        ⟨p.next + p.pause.draws p.pause.idx, p.generated + 1,
          ⟨p.pause.draws, p.pause.idx + 1⟩⟩
        (d.enqueue now)
    else (p, d)

def Producer.tick (p : Producer) (d : Dispatcher) (fuel : ℕ) (now : ℚ) :
    Producer × Dispatcher :=
  producerLoop now fuel p d

/-! ## Simulation state and reachability -/

structure SimState where
  cons : Consumer
  disp : Dispatcher
  prod : Producer

def SimState.consTick (s : SimState) (now : ℚ) : SimState :=
  { s with cons := s.cons.tick now }

def SimState.prodTick (s : SimState) (fuel : ℕ) (now : ℚ) : SimState :=
  let r := producerLoop now fuel s.prod s.disp
  { s with prod := r.1, disp := r.2 }

def SimState.dispTick (s : SimState) (now : ℚ) : SimState :=
  let r := s.disp.tick s.cons now
  { s with disp := r.1, cons := r.2 }

/-- The state `main` constructs before the loop: empty collector, idle
consumer, empty dispatcher queue with the given admission limit, producer
with zero emitted requests; every next-event clock starts at 0. -/
def initState (consLat : ℚ) (limit : ℕ) (prodPause dispPause consPause : Proc) :
    SimState where
  cons := ⟨[], 0, 0, ⟨[]⟩, consLat, consPause⟩
  disp := ⟨dispPause, 0, [], 0, limit⟩
  prod := ⟨0, 0, prodPause⟩

/-- The states the simulation can reach from `s₀`: closed under the three
tick operations at arbitrary times (a superset of the states of any actual
driver run, which uses a particular increasing time sequence). -/
inductive Reachable (s₀ : SimState) : SimState → Prop
  | init : Reachable s₀ s₀
  | consStep (s : SimState) (now : ℚ) :
      Reachable s₀ s → Reachable s₀ (s.consTick now)
  | prodStep (s : SimState) (fuel : ℕ) (now : ℚ) :
      Reachable s₀ s → Reachable s₀ (s.prodTick fuel now)
  | dispStep (s : SimState) (now : ℚ) :
      Reachable s₀ s → Reachable s₀ (s.dispTick now)

/-! ## The driver loop of `main` -/

/-- Partial sums of a stream of draws: `partialSum f k = f 0 + ⋯ + f (k-1)`. -/
def partialSum (f : ℕ → ℚ) : ℕ → ℚ
  | 0 => 0
  | k + 1 => partialSum f k + f k

/-- The fixed step of the driver clock: `microseconds(1)` in seconds. -/
def quantum : ℚ := 1 / 1000000

/-- The driver's loop state: the pipeline plus the running peak counters
`max_queued` and `max_executed`. -/
structure DriverState where
  sim : SimState
  maxQueued : ℕ
  maxExecuting : ℕ

/-- One iteration of the driver loop body: `cons.tick(now)`,
`prod.tick(now)`, `disp.tick(now)` in that order at the same `now`, then
the peak-counter updates. -/
def driverStep (pfuel : ℕ) (now : ℚ) (ds : DriverState) : DriverState :=
  let s := ((ds.sim.consTick now).prodTick pfuel now).dispTick now
  ⟨s, max ds.maxQueued s.disp.queue.length,
      max ds.maxExecuting s.cons.executing.length⟩

/-- The `while (now <= seconds(total_sec))` loop of `main`, advancing `now`
by `quantum` per iteration (fuel-bounded embedding of the while loop). -/
def driverRun (pfuel : ℕ) (horizon : ℚ) : ℕ → ℚ → DriverState → DriverState
  | 0, _, ds => ds
  | fuel + 1, now, ds =>
    if now ≤ horizon then
      driverRun pfuel horizon fuel (now + quantum) (driverStep pfuel now ds)
    else ds

/-- The figures `main` prints after the loop: the peak counters and the
collector state (the six reported statistics are a function of it). -/
structure Report where
  maxQueued : ℕ
  maxExecuting : ℕ
  stats : Collector

def mkReport (ds : DriverState) : Report :=
  ⟨ds.maxQueued, ds.maxExecuting, ds.sim.cons.st⟩

/-- `main` after argument parsing: construct the pipeline (the dispatcher
construction can fail), run the driver loop from `now = 0`, and only then
produce the report. -/
def simMain (horizon lat goalFactor consLat : ℚ)
    (prodPause dispPause consPause : Proc) (pfuel loopFuel : ℕ) :
    Except String Report :=
  match Dispatcher.construct lat goalFactor consLat dispPause with
  | Except.error e => Except.error e
  | Except.ok d =>
    let s₀ : SimState := ⟨⟨[], 0, 0, ⟨[]⟩, consLat, consPause⟩, d, ⟨0, 0, prodPause⟩⟩
    Except.ok (mkReport (driverRun pfuel horizon loopFuel 0 ⟨s₀, 0, 0⟩))

/-! ## Auxiliary predicates and concrete instances -/

/-- Partial-sum view of what the producer loop adds to `_next`. -/
def producerTickTerminates (now : ℚ) (p : Producer) (d : Dispatcher) : Prop :=
  ∃ fuel, now < (producerLoop now fuel p d).1.next

/-- Every draw of the stream is strictly positive. -/
def positiveDraws (f : ℕ → ℚ) : Prop := ∀ i, 0 < f i

/-- A strictly positive draw stream whose partial sums stay below 1. -/
def zenoDraws : ℕ → ℚ := fun i => (1 / 2) ^ (i + 1)

def zenoProd : Producer := ⟨0, 0, ⟨zenoDraws, 0⟩⟩

def zenoDisp : Dispatcher := ⟨⟨fun _ => 1, 0⟩, 0, [], 0, 1⟩

/-- A producer scheduled to emit at time 0, with constant inter-arrival 10. -/
def cexDraws : ℕ → ℚ := fun _ => 10

def cexProd : Producer := ⟨0, 0, ⟨cexDraws, 0⟩⟩

def cexDisp : Dispatcher := ⟨⟨cexDraws, 0⟩, 0, [], 0, 1⟩

/-- The constant-1 draw stream (a `uniform` process with period 1). -/
def oneProc : Proc := ⟨fun _ => 1, 0⟩

def idleProd : Producer := ⟨0, 0, oneProc⟩

def ds0 : DriverState := ⟨initState 1 1 oneProc oneProc oneProc, 0, 0⟩

/-! ## Helper lemmas -/

theorem partialSum_shift_idx (draws : ℕ → ℚ) (idx k : ℕ) :
    partialSum (fun i => draws (idx + i)) (k + 1) =
      draws idx + partialSum (fun i => draws (idx + 1 + i)) k := by
  induction k with
  | zero => simp [partialSum]
  | succ k ih =>
    rw [partialSum, ih, partialSum]
    have h : idx + (k + 1) = idx + 1 + k := by omega
    rw [h]
    ring

theorem producerLoop_succ_pos (now : ℚ) (fuel : ℕ) (p : Producer) (d : Dispatcher)
    (h : p.next ≤ now) :
    producerLoop now (fuel + 1) p d =
      producerLoop now fuel
        ⟨p.next + p.pause.draws p.pause.idx, p.generated + 1,
          ⟨p.pause.draws, p.pause.idx + 1⟩⟩ (d.enqueue now) := by
  rw [producerLoop, if_pos h]

theorem producerLoop_succ_neg (now : ℚ) (fuel : ℕ) (p : Producer) (d : Dispatcher)
    (h : ¬p.next ≤ now) :
    producerLoop now (fuel + 1) p d = (p, d) := by
  rw [producerLoop, if_neg h]

/-- Everything the producer catch-up loop does, as a function of the number
`k` of iterations it performs: `k` requests are created, all stamped with
the tick's `now` and appended in order to the dispatcher's queue tail, the
emission clock advances by the sum of `k` fresh draws, the generated count
by `k`; the loop guard held before each performed iteration and, unless the
fuel ran out, fails after the last. -/
theorem producerLoop_spec (now : ℚ) (fuel : ℕ) :
    ∀ (p : Producer) (d : Dispatcher),
      ∃ k, k ≤ fuel ∧
        (producerLoop now fuel p d).1.generated = p.generated + k ∧
        (producerLoop now fuel p d).1.next =
          p.next + partialSum (fun i => p.pause.draws (p.pause.idx + i)) k ∧
        (producerLoop now fuel p d).1.pause.draws = p.pause.draws ∧
        (producerLoop now fuel p d).1.pause.idx = p.pause.idx + k ∧
        (producerLoop now fuel p d).2 =
          { d with queue := d.queue ++ List.replicate k (Request.make now) } ∧
        (∀ j < k,
          p.next + partialSum (fun i => p.pause.draws (p.pause.idx + i)) j ≤ now) ∧
        (k = fuel ∨
          now < p.next + partialSum (fun i => p.pause.draws (p.pause.idx + i)) k) := by
  induction fuel with
  | zero =>
    intro p d
    refine ⟨0, le_refl 0, by simp [producerLoop], by simp [producerLoop, partialSum],
      rfl, by simp [producerLoop], by simp [producerLoop], ?_, Or.inl rfl⟩
    intro j hj
    exact absurd hj (Nat.not_lt_zero j)
  | succ fuel ih =>
    intro p d
    by_cases hg : p.next ≤ now
    · rw [producerLoop_succ_pos now fuel p d hg]
      obtain ⟨k, hk, hgen, hnext, hdraws, hidx, hdisp, hguard, hlast⟩ :=
        ih ⟨p.next + p.pause.draws p.pause.idx, p.generated + 1,
            ⟨p.pause.draws, p.pause.idx + 1⟩⟩ (d.enqueue now)
      refine ⟨k + 1, by omega, ?_, ?_, hdraws, ?_, ?_, ?_, ?_⟩
      · rw [hgen]; dsimp; omega
      · rw [hnext, partialSum_shift_idx]; dsimp; ring
      · rw [hidx]; dsimp; omega
      · rw [hdisp]
        simp [Dispatcher.enqueue, List.replicate_succ, List.append_assoc]
      · intro j hj
        match j with
        | 0 => simpa [partialSum] using hg
        | j + 1 =>
          have := hguard j (by omega)
          rw [partialSum_shift_idx]
          dsimp at this
          linarith
      · rcases hlast with h | h
        · exact Or.inl (by omega)
        · refine Or.inr ?_
          rw [partialSum_shift_idx]
          dsimp at h
          linarith
    · rw [producerLoop_succ_neg now fuel p d hg]
      refine ⟨0, by omega, by simp, by simp [partialSum], rfl, by simp, by simp,
        ?_, ?_⟩
      · intro j hj
        exact absurd hj (Nat.not_lt_zero j)
      · refine Or.inr ?_
        have := not_le.mp hg
        simp [partialSum]
        linarith

/-- Everything one `consumer::tick` drain does, as a function of the number
`k` of completions it performs: the first `k` in-flight requests are popped
in FIFO order, their latency pairs `(now - start, now - dispatch)` are
appended to the collector in that order, the processed count grows by `k`
and the completion clock by the sum of `k` fresh draws; the loop guard held
before each performed iteration and, unless the FIFO emptied, fails after
the last. -/
theorem consumerDrain_spec (now : ℚ) (l : List Request) :
    ∀ (next : ℚ) (processed : ℕ) (st : Collector) (pause : Proc) (lat : ℚ),
      ∃ k, k ≤ l.length ∧
        (consumerDrain now l next processed st pause lat).executing = l.drop k ∧
        (consumerDrain now l next processed st pause lat).processed =
          processed + k ∧
        (consumerDrain now l next processed st pause lat).next =
          next + partialSum (fun i => pause.draws (pause.idx + i)) k ∧
        (consumerDrain now l next processed st pause lat).pause.draws =
          pause.draws ∧
        (consumerDrain now l next processed st pause lat).pause.idx =
          pause.idx + k ∧
        (consumerDrain now l next processed st pause lat).lat = lat ∧
        (consumerDrain now l next processed st pause lat).st.samples =
          st.samples ++
            (l.take k).map (fun rq => (now - rq.start, now - rq.dispatch)) ∧
        (∀ j < k,
          next + partialSum (fun i => pause.draws (pause.idx + i)) j ≤ now) ∧
        (k = l.length ∨
          now < next + partialSum (fun i => pause.draws (pause.idx + i)) k) := by
  induction l with
  | nil =>
    intro next processed st pause lat
    refine ⟨0, le_refl 0, by simp [consumerDrain], by simp [consumerDrain],
      by simp [consumerDrain, partialSum], rfl, by simp [consumerDrain],
      rfl, by simp [consumerDrain], ?_, Or.inl rfl⟩
    intro j hj
    exact absurd hj (Nat.not_lt_zero j)
  | cons rq rest ih =>
    intro next processed st pause lat
    by_cases hg : next ≤ now
    · rw [consumerDrain, if_pos hg]
      obtain ⟨k, hk, hexec, hproc, hnext, hdraws, hidx, hlat, hsamp, hguard, hlast⟩ :=
        ih (next + pause.draws pause.idx) (processed + 1)
          (st.collect (now - rq.start) (now - rq.dispatch))
          ⟨pause.draws, pause.idx + 1⟩ lat
      refine ⟨k + 1, by simpa using Nat.succ_le_succ hk, ?_, ?_, ?_, hdraws, ?_,
        hlat, ?_, ?_, ?_⟩
      · rw [hexec]; rfl
      · rw [hproc]; omega
      · rw [hnext, partialSum_shift_idx]; dsimp; ring
      · rw [hidx]; dsimp; omega
      · rw [hsamp]
        simp [Collector.collect, List.append_assoc]
      · intro j hj
        match j with
        | 0 => simpa [partialSum] using hg
        | j + 1 =>
          have := hguard j (by omega)
          rw [partialSum_shift_idx]
          dsimp at this
          linarith
      · rcases hlast with h | h
        · exact Or.inl (by simp [h])
        · refine Or.inr ?_
          rw [partialSum_shift_idx]
          dsimp at h
          linarith
    · rw [consumerDrain, if_neg hg]
      refine ⟨0, by omega, by simp, by simp, by simp [partialSum], rfl, by simp,
        rfl, by simp, ?_, ?_⟩
      · intro j hj
        exact absurd hj (Nat.not_lt_zero j)
      · refine Or.inr ?_
        have := not_le.mp hg
        simp [partialSum]
        linarith

/-- `consumer::execute` appends exactly one request (dispatch-stamped with
`now`) to the in-flight tail and touches neither the processed count, the
collector nor the service interval. -/
theorem execute_fields (c : Consumer) (now : ℚ) (rq : Request) :
    (c.execute now rq).executing = c.executing ++ [{ rq with dispatch := now }] ∧
    (c.execute now rq).processed = c.processed ∧
    (c.execute now rq).st = c.st ∧
    (c.execute now rq).lat = c.lat := by
  unfold Consumer.execute
  split_ifs <;> exact ⟨rfl, rfl, rfl, rfl⟩

/-- Everything the admission loop does, as a function of the number `k` of
requests it admits: the first `k` pending requests move to the consumer,
the dispatched count grows by `k`, the consumer's processed count and
collector are untouched, and the in-flight count never exceeds the larger
of its entry value and the limit. -/
theorem dispatchAdmit_spec (now : ℚ) (limit : ℕ) (l : List Request) :
    ∀ (dispatched : ℕ) (cons : Consumer),
      ∃ k, k ≤ l.length ∧
        (dispatchAdmit now limit l dispatched cons).1 = l.drop k ∧
        (dispatchAdmit now limit l dispatched cons).2.1 = dispatched + k ∧
        (dispatchAdmit now limit l dispatched cons).2.2.executing.length =
          cons.executing.length + k ∧
        (dispatchAdmit now limit l dispatched cons).2.2.processed =
          cons.processed ∧
        (dispatchAdmit now limit l dispatched cons).2.2.st = cons.st ∧
        (dispatchAdmit now limit l dispatched cons).2.2.executing.length ≤
          max cons.executing.length limit := by
  induction l with
  | nil =>
    intro dispatched cons
    exact ⟨0, le_refl 0, rfl, by simp [dispatchAdmit], by simp [dispatchAdmit],
      rfl, rfl, le_max_left _ _⟩
  | cons rq rest ih =>
    intro dispatched cons
    by_cases hfull : limit ≤ cons.executing.length
    · rw [dispatchAdmit, if_pos hfull]
      exact ⟨0, by omega, rfl, by simp, by simp, rfl, rfl, le_max_left _ _⟩
    · rw [dispatchAdmit, if_neg hfull]
      obtain ⟨k, hk, hq, hd, hlen, hproc, hst, hbound⟩ :=
        ih (dispatched + 1) (cons.execute now rq)
      obtain ⟨hee, hep, hes, -⟩ := execute_fields cons now rq
      have hlen1 : (cons.execute now rq).executing.length =
          cons.executing.length + 1 := by
        rw [hee]; simp
      refine ⟨k + 1, by simpa using Nat.succ_le_succ hk, ?_, ?_, ?_, ?_, ?_, ?_⟩
      · rw [hq]; rfl
      · rw [hd]; omega
      · rw [hlen, hlen1]; omega
      · rw [hproc, hep]
      · rw [hst, hes]
      · rw [hlen1] at hbound
        have : cons.executing.length + 1 ≤ limit := by omega
        calc (dispatchAdmit now limit rest (dispatched + 1)
                (cons.execute now rq)).2.2.executing.length
            ≤ max (cons.executing.length + 1) limit := hbound
          _ = limit := by omega
          _ ≤ max cons.executing.length limit := le_max_right _ _

/-- What one `dispatcher::tick` does to the counters, both when it fires
and when it does not: some `k` pending requests move to the consumer's
in-flight FIFO, the dispatched count grows by `k`, the limit, the
consumer's processed count and the collector are untouched, and the
in-flight count never exceeds the larger of its entry value and the
limit. -/
theorem dispatcherTick_fields (d : Dispatcher) (cons : Consumer) (now : ℚ) :
    ∃ k, k ≤ d.queue.length ∧
      (d.tick cons now).1.queue.length = d.queue.length - k ∧
      (d.tick cons now).1.dispatched = d.dispatched + k ∧
      (d.tick cons now).1.limit = d.limit ∧
      (d.tick cons now).2.executing.length = cons.executing.length + k ∧
      (d.tick cons now).2.processed = cons.processed ∧
      (d.tick cons now).2.st = cons.st ∧
      (d.tick cons now).2.executing.length ≤
        max cons.executing.length d.limit := by
  unfold Dispatcher.tick
  by_cases hg : d.next ≤ now
  · rw [if_pos hg]
    obtain ⟨k, hk, hq, hd, hlen, hproc, hst, hbound⟩ :=
      dispatchAdmit_spec now d.limit d.queue d.dispatched cons
    exact ⟨k, hk, by rw [hq]; simp, hd, rfl, hlen, hproc, hst, hbound⟩
  · rw [if_neg hg]
    exact ⟨0, by omega, by simp, by simp, rfl, by simp, rfl, rfl,
      le_max_left _ _⟩

/-! ## Claim theorems -/

/-- C4: the spec requires each random process variant to seed its own
random source independently at construction so that two instances of the
same variant decorrelate; the code does this only for `poisson_process`
(`_rng(_rd())`).  In `exp_delay_process` and `cap_delay_process` the
`std::mt19937` member is default-constructed with seed 5489 and the
declared `std::random_device` is never read, so two separately constructed
instances with the same period produce identical `get()` sequences no
matter what entropy their devices would have supplied — the code
contradicts the spec's stated intent. -/
theorem jitter_processes_share_default_seed
    (expDraw uniDraw : ℕ → ℕ → ℚ) (e₁ e₂ : ℕ) (period : ℚ) (_h : e₁ ≠ e₂) :
    (∀ n, exp_delay_nth expDraw (exp_delay_process.construct e₁ period) n =
        exp_delay_nth expDraw (exp_delay_process.construct e₂ period) n) ∧
    (∀ n, cap_delay_nth uniDraw (cap_delay_process.construct e₁ period) n =
        cap_delay_nth uniDraw (cap_delay_process.construct e₂ period) n) :=
  ⟨fun _ => rfl, fun _ => rfl⟩

/-- C4 witness: two instances built from distinct entropy values 0 and 1
still agree on every draw. -/
theorem jitter_processes_share_default_seed_example :
    (0 : ℕ) ≠ 1 ∧
    ((∀ n, exp_delay_nth (fun s i => (s : ℚ) + i) (exp_delay_process.construct 0 1) n =
        exp_delay_nth (fun s i => (s : ℚ) + i) (exp_delay_process.construct 1 1) n) ∧
     (∀ n, cap_delay_nth (fun s i => (s : ℚ) + i) (cap_delay_process.construct 0 1) n =
        cap_delay_nth (fun s i => (s : ℚ) + i) (cap_delay_process.construct 1 1) n)) :=
  ⟨by decide,
   jitter_processes_share_default_seed (fun s i => (s : ℚ) + i)
     (fun s i => (s : ℚ) + i) 0 1 1 (by decide)⟩

/-- C8: every `cap_delay_process` sample is `period` times a jitter draw of
`std::uniform_real_distribution<double>(1.0, CAP_FACTOR)`, so for positive
period it lies in the closed interval `[period, period * CAP_FACTOR]` (the
half-open jitter range makes even the upper bound strict) and is strictly
positive; `CAP_FACTOR` defaults to 3. -/
theorem cap_delay_bounds (uniDraw : ℕ → ℕ → ℚ) (p : cap_delay_process)
    (hp : 0 < p.lat) (h1 : 1 ≤ uniDraw p.rng.seed p.rng.idx)
    (h2 : uniDraw p.rng.seed p.rng.idx < CAP_FACTOR) :
    p.lat ≤ (p.get uniDraw).1 ∧ (p.get uniDraw).1 ≤ p.lat * CAP_FACTOR ∧
    0 < (p.get uniDraw).1 := by
  have hg : (p.get uniDraw).1 = p.lat * uniDraw p.rng.seed p.rng.idx := rfl
  have hu : (0 : ℚ) < uniDraw p.rng.seed p.rng.idx := lt_of_lt_of_le one_pos h1
  refine ⟨?_, ?_, ?_⟩
  · rw [hg]
    calc p.lat = p.lat * 1 := (mul_one _).symm
      _ ≤ p.lat * uniDraw p.rng.seed p.rng.idx :=
        mul_le_mul_of_nonneg_left h1 hp.le
  · rw [hg]
    exact mul_le_mul_of_nonneg_left h2.le hp.le
  · rw [hg]
    exact mul_pos hp hu

/-- C8 witness: a period-2 capped-delay process with jitter draw 2 yields a
sample within its bounds. -/
theorem cap_delay_bounds_example :
    (2 : ℚ) ≤ (cap_delay_process.get (fun _ _ => 2) ⟨2, ⟨5489, 0⟩⟩).1 ∧
    (cap_delay_process.get (fun _ _ => 2) ⟨2, ⟨5489, 0⟩⟩).1 ≤ 2 * CAP_FACTOR ∧
    0 < (cap_delay_process.get (fun _ _ => 2) ⟨2, ⟨5489, 0⟩⟩).1 :=
  cap_delay_bounds (fun _ _ => 2) ⟨2, ⟨5489, 0⟩⟩ (by norm_num) (by norm_num)
    (by norm_num [CAP_FACTOR])

/-- C2 counterexample: ticking at `now = 5` a producer whose scheduled
emission time is 0 queues one request whose creation timestamp is 5 — the
tick's `now` — not the scheduled emission time 0 as the claim states
(`producer::tick` passes `now` to `dispatcher::queue`). -/
theorem producer_stamps_now_cex :
    (producerLoop 5 2 cexProd cexDisp).2.queue.map Request.start = [5] ∧
    ¬(producerLoop 5 2 cexProd cexDisp).2.queue.map Request.start = [0] := by
  have e1 : producerLoop 5 2 cexProd cexDisp =
      producerLoop 5 1
        ⟨cexProd.next + cexProd.pause.draws cexProd.pause.idx,
          cexProd.generated + 1, ⟨cexProd.pause.draws, cexProd.pause.idx + 1⟩⟩
        (cexDisp.enqueue 5) :=
    producerLoop_succ_pos 5 1 cexProd cexDisp (by norm_num [cexProd])
  have e2 : producerLoop 5 1
      ⟨cexProd.next + cexProd.pause.draws cexProd.pause.idx,
        cexProd.generated + 1, ⟨cexProd.pause.draws, cexProd.pause.idx + 1⟩⟩
      (cexDisp.enqueue 5) =
      (⟨cexProd.next + cexProd.pause.draws cexProd.pause.idx,
        cexProd.generated + 1, ⟨cexProd.pause.draws, cexProd.pause.idx + 1⟩⟩,
        cexDisp.enqueue 5) := by
    refine producerLoop_succ_neg 5 0 _ _ ?_
    norm_num [cexProd, cexDraws]
  rw [e1, e2]
  constructor
  · simp [cexDisp, Dispatcher.enqueue, Request.make]
  · simp [cexDisp, Dispatcher.enqueue, Request.make]

/-- C2 amended: for every call `producer.tick(now)`, the catch-up loop runs
exactly while `now >= next_emission_time`; each iteration creates one
request whose creation timestamp equals `now` (the tick argument — not the
scheduled emission time), pushes it to the tail of the dispatcher's pending
queue, advances `next_emission_time` by one draw of the stochastic process
and increments the generated counter by one per created request. -/
theorem producer_tick_characterization (now : ℚ) (fuel : ℕ) (p : Producer)
    (d : Dispatcher) :
    ∃ k, k ≤ fuel ∧
      (p.tick d fuel now).1.generated = p.generated + k ∧
      (p.tick d fuel now).1.next =
        p.next + partialSum (fun i => p.pause.draws (p.pause.idx + i)) k ∧
      (p.tick d fuel now).1.pause.draws = p.pause.draws ∧
      (p.tick d fuel now).1.pause.idx = p.pause.idx + k ∧
      (p.tick d fuel now).2 =
        { d with queue := d.queue ++ List.replicate k (Request.make now) } ∧
      (∀ j < k,
        p.next + partialSum (fun i => p.pause.draws (p.pause.idx + i)) j ≤ now) ∧
      (k = fuel ∨
        now < p.next + partialSum (fun i => p.pause.draws (p.pause.idx + i)) k) := by
  obtain ⟨k, hk, h1, h2, h3, h4, h5, h6, h7⟩ := producerLoop_spec now fuel p d
  exact ⟨k, hk, h1, h2, h3, h4, h5, h6, h7⟩

/-- C5: `consumer.tick(now)` pops in-flight requests in strict FIFO order
while the FIFO is non-empty and `now >= next_completion_time`; for each of
the `k` popped requests it passes (total latency `now - creation`,
execution latency `now - dispatch`) to `collector.collect` in that order,
increments the processed count by one, and advances the completion clock by
one draw of the service-time process per completion. -/
theorem consumer_tick_characterization (now : ℚ) (c : Consumer) :
    ∃ k, k ≤ c.executing.length ∧
      (c.tick now).executing = c.executing.drop k ∧
      (c.tick now).processed = c.processed + k ∧
      (c.tick now).next =
        c.next + partialSum (fun i => c.pause.draws (c.pause.idx + i)) k ∧
      (c.tick now).st.samples = c.st.samples ++
        (c.executing.take k).map (fun rq => (now - rq.start, now - rq.dispatch)) ∧
      (∀ j < k,
        c.next + partialSum (fun i => c.pause.draws (c.pause.idx + i)) j ≤ now) ∧
      (k = c.executing.length ∨
        now < c.next + partialSum (fun i => c.pause.draws (c.pause.idx + i)) k) := by
  obtain ⟨k, hk, h1, h2, h3, h4, h5, h6, h7, h8, h9⟩ :=
    consumerDrain_spec now c.executing c.next c.processed c.st c.pause c.lat
  exact ⟨k, hk, h1, h2, h3, h7, h8, h9⟩

/-- C1: in every reachable state of the simulation the consumer's in-flight
count is at most the dispatcher's admission limit: the initial in-flight
FIFO is empty, `consumer.tick` only pops it, `producer.tick` never touches
it, and the admission loop of `dispatcher.tick` stops admitting as soon as
the count reaches the limit. -/
theorem admission_limit_invariant (consLat : ℚ) (limit : ℕ)
    (prodPause dispPause consPause : Proc) (s : SimState)
    (h : Reachable (initState consLat limit prodPause dispPause consPause) s) :
    s.cons.executing.length ≤ s.disp.limit := by
  induction h with
  | init => exact Nat.zero_le _
  | consStep s now _ ih =>
    obtain ⟨k, hk, hexec, -, -, -, -, -, -, -, -⟩ :=
      consumerDrain_spec now s.cons.executing s.cons.next s.cons.processed
        s.cons.st s.cons.pause s.cons.lat
    calc (s.consTick now).cons.executing.length
        = (s.cons.executing.drop k).length := congrArg List.length hexec
      _ ≤ s.cons.executing.length := by rw [List.length_drop]; omega
      _ ≤ s.disp.limit := ih
  | prodStep s fuel now _ ih =>
    obtain ⟨k, -, -, -, -, -, hdisp, -, -⟩ := producerLoop_spec now fuel s.prod s.disp
    have hlim : (producerLoop now fuel s.prod s.disp).2.limit = s.disp.limit := by
      rw [hdisp]
    calc (s.prodTick fuel now).cons.executing.length
        = s.cons.executing.length := rfl
      _ ≤ s.disp.limit := ih
      _ = (s.prodTick fuel now).disp.limit := hlim.symm
  | dispStep s now _ ih =>
    obtain ⟨k, -, -, -, hlim, -, -, -, hbound⟩ :=
      dispatcherTick_fields s.disp s.cons now
    calc (s.dispTick now).cons.executing.length
        ≤ max s.cons.executing.length s.disp.limit := hbound
      _ = s.disp.limit := max_eq_right ih
      _ = (s.dispTick now).disp.limit := hlim.symm

/-- C1 witness: the invariant holds of the initial state of a concrete
configuration. -/
theorem admission_limit_invariant_example :
    (initState 1 1 oneProc oneProc oneProc).cons.executing.length ≤
      (initState 1 1 oneProc oneProc oneProc).disp.limit :=
  admission_limit_invariant 1 1 oneProc oneProc oneProc _ Reachable.init

/-- C9: request conservation — in every reachable state the producer's
generated count equals pending + in-flight + processed, and the
dispatcher's dispatched count equals in-flight + processed: every request
moves pending → in-flight → processed and none is lost or duplicated. -/
theorem request_conservation (consLat : ℚ) (limit : ℕ)
    (prodPause dispPause consPause : Proc) (s : SimState)
    (h : Reachable (initState consLat limit prodPause dispPause consPause) s) :
    s.prod.generated =
      s.disp.queue.length + s.cons.executing.length + s.cons.processed ∧
    s.disp.dispatched = s.cons.executing.length + s.cons.processed := by
  induction h with
  | init => exact ⟨rfl, rfl⟩
  | consStep s now _ ih =>
    obtain ⟨hg, hd⟩ := ih
    obtain ⟨k, hk, hexec, hproc, -, -, -, -, -, -, -⟩ :=
      consumerDrain_spec now s.cons.executing s.cons.next s.cons.processed
        s.cons.st s.cons.pause s.cons.lat
    have hlen : (s.cons.tick now).executing.length =
        s.cons.executing.length - k := by
      rw [show (s.cons.tick now).executing = s.cons.executing.drop k from hexec,
        List.length_drop]
    have hpr : (s.cons.tick now).processed = s.cons.processed + k := hproc
    constructor
    · show s.prod.generated = s.disp.queue.length +
        (s.cons.tick now).executing.length + (s.cons.tick now).processed
      rw [hlen, hpr]
      omega
    · show s.disp.dispatched =
        (s.cons.tick now).executing.length + (s.cons.tick now).processed
      rw [hlen, hpr]
      omega
  | prodStep s fuel now _ ih =>
    obtain ⟨hg, hd⟩ := ih
    obtain ⟨k, -, hgen, -, -, -, hdisp, -, -⟩ :=
      producerLoop_spec now fuel s.prod s.disp
    have hq : (producerLoop now fuel s.prod s.disp).2.queue.length =
        s.disp.queue.length + k := by
      rw [hdisp]
      simp
    have hdd : (producerLoop now fuel s.prod s.disp).2.dispatched =
        s.disp.dispatched := by
      rw [hdisp]
    constructor
    · show (producerLoop now fuel s.prod s.disp).1.generated =
        (producerLoop now fuel s.prod s.disp).2.queue.length +
          s.cons.executing.length + s.cons.processed
      rw [hgen, hq]
      omega
    · show (producerLoop now fuel s.prod s.disp).2.dispatched =
        s.cons.executing.length + s.cons.processed
      rw [hdd]
      exact hd
  | dispStep s now _ ih =>
    obtain ⟨hg, hd⟩ := ih
    obtain ⟨k, hk, hq, hdd, -, hlen, hproc, -, -⟩ :=
      dispatcherTick_fields s.disp s.cons now
    constructor
    · show s.prod.generated = (s.disp.tick s.cons now).1.queue.length +
        (s.disp.tick s.cons now).2.executing.length +
        (s.disp.tick s.cons now).2.processed
      rw [hq, hlen, hproc]
      omega
    · show (s.disp.tick s.cons now).1.dispatched =
        (s.disp.tick s.cons now).2.executing.length +
        (s.disp.tick s.cons now).2.processed
      rw [hdd, hlen, hproc]
      omega

/-- C9 witness: the conservation equations hold of the initial state of a
concrete configuration. -/
theorem request_conservation_example :
    (initState 1 2 oneProc oneProc oneProc).prod.generated =
      (initState 1 2 oneProc oneProc oneProc).disp.queue.length +
        (initState 1 2 oneProc oneProc oneProc).cons.executing.length +
        (initState 1 2 oneProc oneProc oneProc).cons.processed ∧
    (initState 1 2 oneProc oneProc oneProc).disp.dispatched =
      (initState 1 2 oneProc oneProc oneProc).cons.executing.length +
        (initState 1 2 oneProc oneProc oneProc).cons.processed :=
  request_conservation 1 2 oneProc oneProc oneProc _ Reachable.init

/-- C3: dispatcher construction computes
`limit = ⌊latency_goal * goal_factor / consumer_service_interval⌋` and
fails with the configuration error exactly when that limit is zero; when
the floor is at least one it succeeds with exactly that limit; and on a
failing configuration the whole simulation entry point returns the error,
so no report is produced. -/
theorem dispatcher_construction_limit (lat goalFactor consLat : ℚ)
    (pause : Proc) :
    ((∃ e, Dispatcher.construct lat goalFactor consLat pause = Except.error e) ↔
      (⌊lat * goalFactor / consLat⌋).toNat = 0) ∧
    (1 ≤ ⌊lat * goalFactor / consLat⌋ →
      Dispatcher.construct lat goalFactor consLat pause =
        Except.ok ⟨pause, 0, [], 0, (⌊lat * goalFactor / consLat⌋).toNat⟩) ∧
    (∀ d, Dispatcher.construct lat goalFactor consLat pause = Except.ok d →
      d.limit = (⌊lat * goalFactor / consLat⌋).toNat) ∧
    (∀ (horizon : ℚ) (prodPause consPause : Proc) (pfuel loopFuel : ℕ),
      (⌊lat * goalFactor / consLat⌋).toNat = 0 →
      simMain horizon lat goalFactor consLat prodPause pause consPause
          pfuel loopFuel =
        Except.error "Too low consumer rate") := by
  have hcon : Dispatcher.construct lat goalFactor consLat pause =
      if (⌊lat * goalFactor / consLat⌋).toNat = 0
      then Except.error "Too low consumer rate"
      else Except.ok ⟨pause, 0, [], 0, (⌊lat * goalFactor / consLat⌋).toNat⟩ :=
    rfl
  refine ⟨⟨?_, ?_⟩, ?_, ?_, ?_⟩
  · rintro ⟨e, he⟩
    by_contra hne
    rw [hcon, if_neg hne] at he
    exact Except.noConfusion he
  · intro h0
    exact ⟨"Too low consumer rate", by rw [hcon, if_pos h0]⟩
  · intro h1
    have hne : (⌊lat * goalFactor / consLat⌋).toNat ≠ 0 := by omega
    rw [hcon, if_neg hne]
  · intro d hd
    by_cases h0 : (⌊lat * goalFactor / consLat⌋).toNat = 0
    · rw [hcon, if_pos h0] at hd
      exact Except.noConfusion hd
    · rw [hcon, if_neg h0] at hd
      injection hd with h
      rw [← h]
  · intro horizon prodPause consPause pfuel loopFuel h0
    unfold simMain
    rw [hcon, if_pos h0]

theorem driverRun_eq_fold (pfuel : ℕ) (horizon : ℚ) :
    ∀ (m fuel n : ℕ) (ds : DriverState), m ≤ fuel →
      (∀ k : ℕ, k < m ↔ ((n + k : ℕ) : ℚ) * quantum ≤ horizon) →
      driverRun pfuel horizon fuel ((n : ℚ) * quantum) ds =
        List.foldl (fun (s : DriverState) (k : ℕ) => driverStep pfuel ((k : ℚ) * quantum) s) ds
          (List.range' n m) := by
  intro m
  induction m with
  | zero =>
    intro fuel n ds _ hiff
    have hnot : ¬(n : ℚ) * quantum ≤ horizon := by
      intro hle
      have : (0 : ℕ) < 0 := (hiff 0).mpr (by push_cast; linarith)
      omega
    cases fuel with
    | zero => rfl
    | succ f =>
      rw [driverRun, if_neg hnot]
      rfl
  | succ m ih =>
    intro fuel n ds hm hiff
    obtain ⟨f, rfl⟩ : ∃ f, fuel = f + 1 := ⟨fuel - 1, by omega⟩
    have hle : (n : ℚ) * quantum ≤ horizon := by
      have h0 := (hiff 0).mp (by omega)
      push_cast at h0
      linarith
    rw [driverRun, if_pos hle]
    have hnow : (n : ℚ) * quantum + quantum = ((n + 1 : ℕ) : ℚ) * quantum := by
      push_cast
      ring
    rw [hnow]
    rw [ih f (n + 1) (driverStep pfuel ((n : ℚ) * quantum) ds) (by omega) ?_]
    · rw [show List.range' n (m + 1) = n :: List.range' (n + 1) m from rfl,
        List.foldl_cons]
    · intro k
      have hk := hiff (k + 1)
      constructor
      · intro h'
        have h2 := hk.mp (by omega)
        rwa [show (n + (k + 1) : ℕ) = (n + 1 + k : ℕ) from by omega] at h2
      · intro h'
        have h2 := hk.mpr
          (by rwa [show (n + (k + 1) : ℕ) = (n + 1 + k : ℕ) from by omega])
        omega

/-- C6: started with enough fuel, the driver loop from `now = 0` performs
exactly one step per clock value `k * quantum` with `k * quantum ≤ horizon`
(in increasing order) and terminates as soon as `now` exceeds the horizon;
each step runs `consumer.tick`, `producer.tick`, `dispatcher.tick` in that
order at the same `now`, and `now` advances by the fixed quantum between
steps. -/
theorem driver_trace (pfuel : ℕ) (horizon : ℚ) (loopFuel : ℕ)
    (ds : DriverState) (hh : 0 ≤ horizon)
    (hf : (⌊horizon / quantum⌋).toNat + 1 ≤ loopFuel) :
    driverRun pfuel horizon loopFuel 0 ds =
      List.foldl (fun (s : DriverState) (k : ℕ) => driverStep pfuel ((k : ℚ) * quantum) s) ds
        (List.range ((⌊horizon / quantum⌋).toNat + 1)) ∧
    (∀ k : ℕ, (k : ℚ) * quantum ≤ horizon ↔
      k < (⌊horizon / quantum⌋).toNat + 1) ∧
    (∀ (now : ℚ) (ds' : DriverState),
      (driverStep pfuel now ds').sim =
        ((ds'.sim.consTick now).prodTick pfuel now).dispTick now) := by
  have hq : (0 : ℚ) < quantum := by norm_num [quantum]
  have hfl : 0 ≤ ⌊horizon / quantum⌋ := Int.floor_nonneg.mpr (div_nonneg hh hq.le)
  have hiff : ∀ k : ℕ, k < (⌊horizon / quantum⌋).toNat + 1 ↔
      (k : ℚ) * quantum ≤ horizon := by
    intro k
    calc k < (⌊horizon / quantum⌋).toNat + 1
        ↔ k ≤ (⌊horizon / quantum⌋).toNat := Nat.lt_succ_iff
      _ ↔ (k : ℤ) ≤ ⌊horizon / quantum⌋ := Int.le_toNat hfl
      _ ↔ ((k : ℤ) : ℚ) ≤ horizon / quantum := Int.le_floor
      _ ↔ (k : ℚ) ≤ horizon / quantum := by norm_cast
      _ ↔ (k : ℚ) * quantum ≤ horizon := le_div_iff₀ hq
  refine ⟨?_, fun k => (hiff k).symm, fun now ds' => rfl⟩
  have h0 : driverRun pfuel horizon loopFuel 0 ds =
      driverRun pfuel horizon loopFuel (((0 : ℕ) : ℚ) * quantum) ds := by
    norm_num
  rw [h0, List.range_eq_range']
  refine driverRun_eq_fold pfuel horizon ((⌊horizon / quantum⌋).toNat + 1)
    loopFuel 0 ds hf ?_
  intro k
  simpa using hiff k

/-- C6 witness: a zero-length horizon runs exactly the step at `now = 0`. -/
theorem driver_trace_example :
    driverRun 0 0 1 0 ds0 =
      List.foldl (fun (s : DriverState) (k : ℕ) => driverStep 0 ((k : ℚ) * quantum) s) ds0
        (List.range ((⌊(0 : ℚ) / quantum⌋).toNat + 1)) ∧
    (∀ k : ℕ, (k : ℚ) * quantum ≤ 0 ↔
      k < (⌊(0 : ℚ) / quantum⌋).toNat + 1) ∧
    (∀ (now : ℚ) (ds' : DriverState),
      (driverStep 0 now ds').sim =
        ((ds'.sim.consTick now).prodTick 0 now).dispTick now) :=
  driver_trace 0 0 1 ds0 (le_refl 0) (by norm_num)

theorem zenoLoop_next (fuel : ℕ) :
    ∀ (idx g : ℕ) (next : ℚ) (d : Dispatcher), next = 1 - (1 / 2 : ℚ) ^ idx →
      (producerLoop 1 fuel ⟨next, g, ⟨zenoDraws, idx⟩⟩ d).1.next =
        1 - (1 / 2 : ℚ) ^ (idx + fuel) := by
  induction fuel with
  | zero =>
    intro idx g next d h
    simpa [producerLoop] using h
  | succ fuel ih =>
    intro idx g next d h
    have hpow : (0 : ℚ) < (1 / 2 : ℚ) ^ idx := by positivity
    have hguard : next ≤ 1 := by rw [h]; linarith
    rw [producerLoop_succ_pos 1 fuel _ _ hguard]
    dsimp
    rw [ih (idx + 1) (g + 1) (next + zenoDraws idx) (d.enqueue 1)
      (by rw [h]; unfold zenoDraws; ring)]
    rw [show idx + 1 + fuel = idx + (fuel + 1) from by omega]

/-- C10 counterexample: a stream of strictly positive draws whose partial
sums stay below `now - next_emission_time` keeps the catch-up loop's guard
`now >= next_emission_time` true after every number of iterations, so
strict positivity of the drawn intervals alone does not make
`producer.tick` terminate. -/
theorem producer_zeno_cex :
    positiveDraws zenoDraws ∧ ¬producerTickTerminates 1 zenoProd zenoDisp := by
  constructor
  · intro i
    unfold zenoDraws
    positivity
  · rintro ⟨fuel, hf⟩
    rw [show zenoProd = (⟨0, 0, ⟨zenoDraws, 0⟩⟩ : Producer) from rfl] at hf
    rw [zenoLoop_next fuel 0 0 0 zenoDisp (by norm_num)] at hf
    have hpow : (0 : ℚ) < (1 / 2 : ℚ) ^ (0 + fuel) := by positivity
    linarith

theorem producerLoop_progress (now δ : ℚ) :
    ∀ (fuel : ℕ) (p : Producer) (d : Dispatcher),
      (∀ i, δ ≤ p.pause.draws i) →
      now < (producerLoop now fuel p d).1.next ∨
        p.next + (fuel : ℚ) * δ ≤ (producerLoop now fuel p d).1.next := by
  intro fuel
  induction fuel with
  | zero =>
    intro p d _
    right
    simp [producerLoop]
  | succ fuel ih =>
    intro p d hlb
    by_cases hg : p.next ≤ now
    · rw [producerLoop_succ_pos now fuel p d hg]
      rcases ih ⟨p.next + p.pause.draws p.pause.idx, p.generated + 1,
          ⟨p.pause.draws, p.pause.idx + 1⟩⟩ (d.enqueue now) hlb with h | h
      · exact Or.inl h
      · right
        dsimp at h
        have hdr := hlb p.pause.idx
        push_cast
        linarith
    · rw [producerLoop_succ_neg now fuel p d hg]
      exact Or.inl (not_le.mp hg)

/-- C10 amended: `producer.tick` terminates for every input state under the
strengthened precondition that the drawn intervals are uniformly bounded
below by a positive constant — each of the loop's iterations then advances
the next-emission timestamp by at least that constant, so finitely many
iterations push it past `now`. -/
theorem producer_tick_terminates_of_bound (now δ : ℚ) (p : Producer)
    (d : Dispatcher) (hδ : 0 < δ) (hlb : ∀ i, δ ≤ p.pause.draws i) :
    producerTickTerminates now p d := by
  obtain ⟨n, hn⟩ := exists_nat_gt ((now - p.next) / δ)
  refine ⟨n, ?_⟩
  rcases producerLoop_progress now δ n p d hlb with h | h
  · exact h
  · have h2 : now - p.next < n * δ := (div_lt_iff₀ hδ).mp hn
    linarith

/-- C10 witness: with the constant-1 draw stream the catch-up loop of a
producer scheduled at time 0 and ticked at `now = 1` terminates. -/
theorem producer_tick_terminates_example :
    producerTickTerminates 1 idleProd zenoDisp :=
  producer_tick_terminates_of_bound 1 1 idleProd zenoDisp one_pos
    (fun _ => le_refl 1)

end QueueDispatch
